import Mathlib

set_option autoImplicit false

/-!
Verification of the adaptive retrieval and orchestration subsystem of the
SIRA research automation backend, as a shallow embedding in Lean 4.

The embedding translates the Python sources under `backend/`:
* `services/multi_retriever.py` — provider registry, weight/quota/health
  updates, provider selection and the retry loop `search_and_extract`;
* `services/retriever.py` — offline cache lookup and save;
* `services/rag_pipeline.py` — the strategy decision of `RAGPipeline`;
* `services/tasks.py` — the scheduled run `run_research_task`;
* `routers/history.py` — the run-to-run diff endpoint;
* `routers/research.py` — `merge_knowledge_graphs`;
* `services/knowledge_graph.py` — `finalize_graph`.

Modelling conventions: Python floats carrying scores and weights become
`Rat` (every constant involved is an exact decimal); Python dicts used as
insertion-ordered maps become association lists with an in-place `upsert`;
external collaborators (live HTTP search providers, the LLM, the embedding
store, the realtime dispatcher) become explicit oracle parameters; a Python
exception becomes `Except.error` with the exception text; wall-clock
rate limiting (`apply_rate_limit`) only sleeps and stamps a timestamp and is
not observable in any verified property, so it is not modelled.
-/

namespace SIRA

/-- Python `min(a, b)` on two numbers: `a` when `a <= b`. -/
def pymin (a b : Rat) : Rat := if a ≤ b then a else b

/-- Python `max(a, b)` on two numbers: `a` when `a >= b`. -/
def pymax (a b : Rat) : Rat := if b ≤ a then a else b

/-! ### Provider registry (`services/multi_retriever.py`) -/

/-- One entry of the `SEARCH_PROVIDERS` dict: weight, optional quota,
health flag. -/
structure Provider where
  weight : Rat
  quota : Option Int
  healthy : Bool
deriving DecidableEq, Repr

/-- The registry keeps the dict insertion order of `SEARCH_PROVIDERS`. -/
abbrev Registry := List (String × Provider)

/-- Initial provider configuration (`SEARCH_PROVIDERS` literal). -/
def SEARCH_PROVIDERS : Registry :=
  [("serpapi", ⟨1, some 100, true⟩),
   ("brave", ⟨mkRat 4 5, some 2000, true⟩),
   ("duckduckgo", ⟨mkRat 1 2, none, true⟩)]

/-- `meta["quota"] is None or meta["quota"] > 0`. -/
def quota_ok (p : Provider) : Bool :=
  match p.quota with
  | none => true
  | some q => decide (0 < q)

/-- Update the entry of one provider, leaving the others unchanged. -/
def updateProvider (name : String) (f : Provider → Provider) (reg : Registry) : Registry :=
  reg.map fun e => if e.1 = name then (e.1, f e.2) else e

/-- Body of `mark_success` on one provider: raise the weight by `0.05`
(here `mkRat 1 20`) capped at `1.0`, set healthy, decrement a finite quota and mark unhealthy
when it reaches `0`. -/
def succUpdate (p : Provider) : Provider :=
  let w := pymin 1 (p.weight + mkRat 1 20)
  match p.quota with
  | none => ⟨w, none, true⟩
  | some q => ⟨w, some (q - 1), decide (0 < q - 1)⟩

/-- Body of `mark_failure` on one provider: lower the weight by `0.1`
floored at `0.1` and set unhealthy. -/
def failUpdate (p : Provider) : Provider :=
  ⟨pymax (mkRat 1 10) (p.weight - mkRat 1 10), p.quota, false⟩

/-- `mark_success(provider)`. -/
def mark_success (name : String) (reg : Registry) : Registry :=
  updateProvider name succUpdate reg

/-- `mark_failure(provider)`. -/
def mark_failure (name : String) (reg : Registry) : Registry :=
  updateProvider name failUpdate reg

/-- The two operations that mutate `SEARCH_PROVIDERS`. -/
inductive RouterOp where
  | success (name : String)
  | failure (name : String)
deriving DecidableEq, Repr

def applyOp (reg : Registry) : RouterOp → Registry
  | .success n => mark_success n reg
  | .failure n => mark_failure n reg

/-- The registry after a sequence of `mark_success` / `mark_failure` calls
starting from the initial configuration. -/
def applyOps (ops : List RouterOp) : Registry :=
  ops.foldl applyOp SEARCH_PROVIDERS

/-- The `candidates` list of `pick_provider`: healthy providers with
remaining quota, in registry order. -/
def candidates (reg : Registry) : List (String × Provider) :=
  reg.filter fun e => e.2.healthy && quota_ok e.2

/-- `pick_provider()`: take the candidate with the highest weight (Python
`max` keeps the first maximum); fall back to `"duckduckgo"` when no
candidate remains. -/
def pick_provider (reg : Registry) : String :=
  match candidates reg with
  | [] => "duckduckgo"
  | c :: cs => (cs.foldl (fun best x => if best.2.weight < x.2.weight then x else best) c).1

/-! ### Offline cache and the retry loop (`services/retriever.py`,
`services/multi_retriever.py`) -/

/-- One record of `offline_cache.json`. -/
structure CacheEntry where
  topic : String
  title : String
  url : String
  text : String
deriving DecidableEq, Repr

/-- A raw search result as returned by a provider function. -/
structure RawResult where
  title : Option String
  url : Option String
  snippet : Option String
  text : Option String
deriving DecidableEq, Repr

/-- A normalized result (`normalize` attaches the provider name). -/
structure NormResult where
  title : String
  url : String
  snippet : String
  provider : String
deriving DecidableEq, Repr

/-- Python `a or b` on strings: `b` when `a` is falsy (empty). -/
def pyOrStr (a b : String) : String :=
  if a = "" then b else a

/-- Python truthiness of a `.get` result: absent or empty is falsy. -/
def optStr (o : Option String) : String :=
  o.getD ""

/-- `dedupe`: keep the first result for each `(url, title)` pair. -/
def dedupe (results : List NormResult) : List NormResult :=
  results.foldl
    (fun acc r =>
      if (acc.map fun x => (x.url, x.title)).contains (r.url, r.title) then acc
      else acc ++ [r])
    []

/-- `normalize`: fill field defaults, attach the provider, dedupe. -/
def normalize (results : List RawResult) (provider : String) : List NormResult :=
  dedupe (results.map fun r =>
    ⟨pyOrStr (optStr r.title) "Untitled",
     optStr r.url,
     pyOrStr (optStr r.snippet) (optStr r.text),
     provider⟩)

/-- Python `str.lower()`: `Char.toLower` on each character.  String
operations are carried out on the character list so that they evaluate
inside the kernel. -/
def strLower (s : String) : String :=
  (s.toList.map Char.toLower).asString

/-- Python `str.strip()`: drop whitespace from both ends. -/
def strTrim (s : String) : String :=
  (((s.toList.dropWhile Char.isWhitespace).reverse.dropWhile
      Char.isWhitespace).reverse).asString

def strContains (hay needle : String) : Bool :=
  decide (needle.toList <:+: hay.toList)

/-- `get_offline_results(topic)`: cache entries whose stored topic contains
the lower-cased, stripped query topic. -/
def get_offline_results (cache : List CacheEntry) (topic : String) : List CacheEntry :=
  let t := strTrim (strLower topic)
  cache.filter fun c => strContains (strLower c.topic) t

/-- Entries of the offline cache as raw results (`ddg_search` hands them to
the same pipeline as live results). -/
def cacheToRaw (l : List CacheEntry) : List RawResult :=
  l.map fun c => ⟨some c.title, some c.url, none, some c.text⟩

/-- `save_to_cache(topic, results)`: append results whose url is non-empty
and not already present; existing entries are never overwritten. -/
def save_to_cache (topic : String) (results : List RawResult) (cache : List CacheEntry) :
    List CacheEntry :=
  results.foldl
    (fun acc r =>
      let url := optStr r.url
      if url = "" ∨ (acc.map CacheEntry.url).contains url then acc
      else acc ++ [⟨strTrim (strLower topic), pyOrStr (optStr r.title) "Untitled", url,
                    pyOrStr (optStr r.snippet) (optStr r.text)⟩])
    cache

/-- Result of one pass of `search_and_extract`: the provider functions for
`serpapi` and `brave` catch their own exceptions and return `[]`, so the
only failure mode observable in the retry loop is an empty list.  The
`duckduckgo` provider is `ddg_search`, which reads the offline cache. -/
def providerFetch (live : String → String → List RawResult)
    (cache : List CacheEntry) (name topic : String) : List RawResult :=
  if name = "duckduckgo" then cacheToRaw (get_offline_results cache topic)
  else live name topic

/-- `search_and_extract(topic)` with explicit fuel for the recursive retry:
pick a provider, fetch; an empty result raises `ValueError`, which the
handler turns into `mark_failure` plus a recursive retry; a non-empty
result is marked as success, saved to the cache and normalized.  `none`
means the recursion did not finish within `fuel` unfoldings. -/
def search_and_extract_fuel (live : String → String → List RawResult) :
    Nat → Registry → List CacheEntry → String →
    Option (List NormResult × Registry × List CacheEntry)
  | 0, _, _, _ => none
  | fuel + 1, reg, cache, topic =>
    let provider := pick_provider reg
    let raw := providerFetch live cache provider topic
    if raw = [] then
      search_and_extract_fuel live fuel (mark_failure provider reg) cache topic
    else
      some (normalize raw provider, mark_success provider reg, save_to_cache topic raw cache)

/-- Live providers that return nothing, as happens when both API keys are
absent from the environment (each provider function catches its own
exception and returns the empty list). -/
def deadLive : String → String → List RawResult := fun _ _ => []

/-! ### Retrieval strategy engine (`services/rag_pipeline.py`) -/

def THRESHOLD_HIGH : Rat := mkRat 82 100
def THRESHOLD_MEDIUM : Rat := mkRat 70 100
def THRESHOLD_MINIMUM : Rat := mkRat 40 100

/-- An input document of `_format_sources`: a vector-memory hit or a
realtime result, as a dict with optional fields. -/
structure RawDoc where
  title : Option String
  url : Option String
  text : Option String
  snippet : Option String
  score : Option Rat
deriving DecidableEq, Repr

/-- A formatted source produced by `_format_sources`. -/
structure Source where
  title : String
  url : String
  summary : String
  score : Rat
  source : String
deriving DecidableEq, Repr

/-- `r.get("score", 0)`. -/
def docScore (r : RawDoc) : Rat :=
  r.score.getD 0

def formatSources (rawList : List RawDoc) (sourceType : String) : List Source :=
  rawList.map fun r =>
    ⟨r.title.getD "Untitled", r.url.getD "",
     pyOrStr (optStr r.text) (optStr r.snippet), docScore r, sourceType⟩

/-- The `TypeError` raised at the two call sites
`search_and_extract(query, n)` of `rag_pipeline.py`: the function imported
from `services.multi_retriever` takes a single positional argument. -/
def searchArityError : String :=
  "TypeError: search_and_extract() takes 1 positional argument but 2 were given"

/-- `_cached_strategy`: memory results only, truncated to `max_results`. -/
def cachedStrategy (vectorResults : List RawDoc) (maxResults : Nat) :
    String × List Source :=
  ("cached", formatSources (vectorResults.take maxResults) "cached")

/-- `_hybrid_strategy`: at most 2 cached hits; when more results are
needed the code calls the one-argument `search_and_extract` with two
arguments, which raises `TypeError`. -/
def hybridStrategy (vectorResults : List RawDoc) (maxResults : Nat) :
    Except String (String × List Source) :=
  let sources := formatSources (vectorResults.take 2) "cached"
  if 0 < maxResults - sources.length then .error searchArityError
  else .ok ("hybrid", sources)

/-- `_web_search_strategy`: realtime results first (truncated), then the
same two-argument call of `search_and_extract` when slots remain. -/
def webStrategy (realtime : List RawDoc) (maxResults : Nat) :
    Except String (String × List Source) :=
  let sources := if realtime ≠ [] then formatSources (realtime.take maxResults) "realtime" else []
  if sources.length < maxResults then .error searchArityError
  else .ok ("web", sources)

/-- `_decide_strategy` applied to the already-filtered vector results. -/
def decideStrategy (realtime : List RawDoc) (vectorResults : List RawDoc)
    (maxResults : Nat) : Except String (String × List Source) :=
  match vectorResults with
  | [] => webStrategy realtime maxResults
  | top :: _ =>
    if THRESHOLD_HIGH ≤ docScore top then .ok (cachedStrategy vectorResults maxResults)
    else if THRESHOLD_MEDIUM ≤ docScore top then hybridStrategy vectorResults maxResults
    else hybridStrategy vectorResults maxResults

/-- Steps 3 and 4 of `RAGPipeline.retrieve`: drop vector candidates with
score not above `THRESHOLD_MINIMUM`, then decide the strategy.  The
realtime dispatcher `fetch_realtime` is an oracle given by its result. -/
def retrieveDecision (realtime : List RawDoc) (vectorResults : List RawDoc)
    (maxResults : Nat) : Except String (String × List Source) :=
  decideStrategy realtime
    (vectorResults.filter fun r => THRESHOLD_MINIMUM < docScore r) maxResults

/-! ### Scheduled research runs (`services/tasks.py`) -/

/-- An article entering the summarization loop of `run_research_task`. -/
structure Article where
  title : String
  url : String
  snippet : Option String
  text : Option String
  provider : Option String
deriving DecidableEq, Repr

/-- `art.get("snippet") or art.get("text") or ""`. -/
def articleRawText (art : Article) : String :=
  pyOrStr (optStr art.snippet) (optStr art.text)

/-- The keyword list of `is_real_time_topic`. -/
def rtKeywords : List String :=
  ["live", "price", "crypto", "bitcoin", "btc", "eth", "market", "stocks",
   "nifty", "sensex", "forex", "currency", "usd", "inr", "gold", "xau",
   "weather", "temperature", "aqi", "pollution", "earthquake", "quake",
   "seismic", "news", "headlines", "trending"]

/-- `is_real_time_topic(topic)`: any keyword occurs in the lower-cased
topic. -/
def is_real_time_topic (topic : String) : Bool :=
  rtKeywords.any fun k => strContains (strLower topic) k

/-- External collaborators of `run_research_task`, each able to raise. -/
structure TaskOracles where
  realtime : String → Except String (List Article)
  search : String → Except String (List Article)
  summarize : String → Except String String
  evaluate : String → String → Except String String
  upsert : String → String → String → String → Except String Unit
  extract : List String → Except String (Nat × Nat)

/-- The history row written by `_insert_history_row`.  The two timestamps
are the start and end of the run and carry no verified content, so they
are omitted; the relational store is modelled at its interface as a
reliable append. -/
structure HistoryRecord where
  user_id : String
  topic : String
  job_id : Option String
  status : String
  result_count : Nat
  kg_nodes : Nat
  kg_edges : Nat
  error_message : Option String
  full_summary_text : String
deriving DecidableEq, Repr

/-- Outcome of the per-article loop: either it finished with the
accumulated summaries, KG input texts and `len(results_out)`, or an
uncaught exception aborted it, keeping the partial accumulations (Python
assigns `result_count` only after the loop, so it stays `0` then). -/
inductive LoopOut where
  | done (summaries texts : List String) (count : Nat)
  | failed (summaries texts : List String) (msg : String)
deriving DecidableEq, Repr

/-- The per-article loop of `run_research_task`: skip articles with no
text; `summarize_text` and `evaluate_source` may raise (uncaught);
`memory.upsert_text` is wrapped in its own try/except and its failure is
ignored. -/
def articleLoop (o : TaskOracles) (user_id : String) :
    List Article → List String → List String → Nat → LoopOut
  | [], sums, texts, cnt => .done sums texts cnt
  | art :: rest, sums, texts, cnt =>
    let raw := articleRawText art
    if raw = "" then articleLoop o user_id rest sums texts cnt
    else
      match o.summarize raw with
      | .error e => .failed sums texts e
      | .ok summary =>
        match o.evaluate art.url raw with
        | .error e => .failed sums texts e
        | .ok _cred =>
          let _ignored := o.upsert user_id summary art.url art.title
          articleLoop o user_id rest (sums ++ [summary]) (texts ++ [summary]) (cnt + 1)

/-- `run_research_task(topic, user_id, job_id)` up to and including the
history insert (lines 231–336): the try body runs the fetch, the loop and
the KG extraction; the except clause classifies any exception as
`status=error` with its message; the finally clause appends exactly one
history row.  The function is total: every failing collaborator call is
matched and classified, which is the shallow form of never raising past
the boundary. -/
def taskOutcome (o : TaskOracles) (topic user_id : String) :
    String × Option String × Nat × Nat × Nat × List String :=
  let fetched : Except String (List Article) :=
    if is_real_time_topic topic then o.realtime topic else o.search topic
  match fetched with
  | .error e => ("error", some e, 0, 0, 0, [])
  | .ok articles =>
    if articles = [] then ("success", none, 0, 0, 0, [])
    else
      match articleLoop o user_id articles [] [] 0 with
      | .failed sums _texts e => ("error", some e, 0, 0, 0, sums)
      | .done sums texts cnt =>
        match o.extract texts with
        | .error e => ("error", some e, cnt, 0, 0, sums)
        | .ok (n, m) => ("success", none, cnt, n, m, sums)

def run_research_task (o : TaskOracles) (topic user_id : String)
    (job_id : Option String) (hist : List HistoryRecord) : List HistoryRecord :=
  let outcome := taskOutcome o topic user_id
  hist ++ [⟨user_id, topic, job_id, outcome.1, outcome.2.2.1, outcome.2.2.2.1,
            outcome.2.2.2.2.1, outcome.2.1, String.intercalate "\n\n" outcome.2.2.2.2.2⟩]

/-- Collaborators whose fetch phase finds nothing and which never fail. -/
def emptyFetchOracles : TaskOracles :=
  ⟨fun _ => .ok [], fun _ => .ok [], fun s => .ok s, fun _ _ => .ok "",
   fun _ _ _ _ => .ok (), fun _ => .ok (0, 0)⟩

/-! ### Run-to-run diff (`routers/history.py`) -/

/-- A row of `auto_research_history` as read back by the diff endpoint.
Timestamps are integral instants;  the numeric columns are integers, so
the `_safe` int coercion of `_numeric_diff` is the identity on them. -/
structure RunRecord where
  topic : String
  status : String
  result_count : Int
  kg_nodes : Int
  kg_edges : Int
  run_started_at : Int
  run_finished_at : Int
  full_summary_text : String
deriving DecidableEq, Repr

structure NumericDiff where
  result_count_change : Int
  kg_node_change : Int
  kg_edge_change : Int
  latest_status : String
  previous_status : String
  latest_run_at : Int
  previous_run_at : Int
deriving DecidableEq, Repr

structure DiffResponse where
  latest : RunRecord
  previous : RunRecord
  numeric_diff : NumericDiff
  llm_diff : String
deriving DecidableEq, Repr

/-- Insertion sort, descending by an integral key: the model of the
datastore `order(key, desc=True)`. -/
def insertDesc (key : RunRecord → Int) (r : RunRecord) :
    List RunRecord → List RunRecord
  | [] => [r]
  | x :: xs => if key x < key r then r :: x :: xs else x :: insertDesc key r xs

def sortDesc (key : RunRecord → Int) (l : List RunRecord) : List RunRecord :=
  l.foldr (insertDesc key) []

/-- `_numeric_diff(latest, previous)`. -/
def numeric_diff (latest previous : RunRecord) : NumericDiff :=
  ⟨latest.result_count - previous.result_count,
   latest.kg_nodes - previous.kg_nodes,
   latest.kg_edges - previous.kg_edges,
   latest.status, previous.status,
   latest.run_finished_at, previous.run_finished_at⟩

def missingSummaryNote : String :=
  "Summary text missing in history — semantic diff unavailable."

/-- `diff_last_two_runs(job_id)` over the job's history rows: the endpoint
orders by `run_started_at` descending, limits to 2, rejects fewer than two
rows with HTTP 400, and otherwise returns both rows, the numeric diff and
the LLM comparison (or a warning when a summary is missing).
`llm` is the `llm_compare_runs(previous_summary, latest_summary, topic)`
oracle. -/
def diff_last_two_runs (llm : String → String → String → String)
    (hist : List RunRecord) : Except String DiffResponse :=
  match (sortDesc (fun r => r.run_started_at) hist).take 2 with
  | [latest, previous] =>
    let numeric := numeric_diff latest previous
    let previousSummary := previous.full_summary_text
    let latestSummary := latest.full_summary_text
    if previousSummary = "" ∨ latestSummary = "" then
      .ok ⟨latest, previous, numeric, missingSummaryNote⟩
    else
      .ok ⟨latest, previous, numeric,
           llm previousSummary latestSummary
             (pyOrStr latest.topic (pyOrStr previous.topic "Unknown"))⟩
  | _ => .error "Not enough runs to compare"

/-- Modelled from the spec: the diff operation as the specification words
it — fetch the two most recent history records ordered by finish time
descending, signal a not-enough-history condition when fewer than two
exist, and otherwise return the numeric delta plus the natural-language
comparison when both summaries are non-empty.  Kept for comparison with
`diff_last_two_runs`, which is translated from the router. -/
def diffByFinishSpec (llm : String → String → String → String)
    (hist : List RunRecord) : Except String DiffResponse :=
  match (sortDesc (fun r => r.run_finished_at) hist).take 2 with
  | [latest, previous] =>
    let numeric := numeric_diff latest previous
    if previous.full_summary_text = "" ∨ latest.full_summary_text = "" then
      .ok ⟨latest, previous, numeric, missingSummaryNote⟩
    else
      .ok ⟨latest, previous, numeric,
           llm previous.full_summary_text latest.full_summary_text
             (pyOrStr latest.topic (pyOrStr previous.topic "Unknown"))⟩
  | _ => .error "Not enough runs to compare"

/-- A concrete LLM comparison oracle for counterexample evaluation. -/
def constLLM : String → String → String → String := fun _ _ _ => "LLM comparison"

/-- Two runs whose start order and finish order disagree: the first run
started earlier but finished later (a long run overlapping a short one). -/
def longRun : RunRecord := ⟨"t", "success", 5, 3, 2, 1, 10, "long summary"⟩
def shortRun : RunRecord := ⟨"t", "success", 7, 4, 9, 2, 3, "short summary"⟩

/-! ### Knowledge graphs (`services/knowledge_graph.py`,
`routers/research.py`) -/

structure NodeData where
  id : String
  label : String
  type : String
deriving DecidableEq, Repr

structure KGNode where
  data : NodeData
deriving DecidableEq, Repr

structure EdgeData where
  source : String
  target : String
  label : String
deriving DecidableEq, Repr

structure KGEdge where
  data : EdgeData
deriving DecidableEq, Repr

/-- A Cytoscape-shaped graph value as produced by `finalize_graph`,
`empty_graph`, `extract_triplets_from_texts` and `merge_knowledge_graphs`:
node list, edge list and the `counts` pair. -/
structure KGraph where
  nodes : List KGNode
  edges : List KGEdge
  counts : Nat × Nat
deriving DecidableEq, Repr

/-- A Python knowledge-graph value at the `merge_knowledge_graphs`
boundary: the falsy empty dict (the initial `previous_kg = {}` of the
research router) or a graph. -/
inductive PyKG where
  | empty
  | g (k : KGraph)
deriving DecidableEq, Repr

/-- `(url-keyed) node_map[k] = v`: replace the entry of an existing key in
place, append a fresh key at the end — Python dict assignment. -/
def upsertA (k : String) (v : KGNode) : List (String × KGNode) → List (String × KGNode)
  | [] => [(k, v)]
  | (k2, v2) :: rest => if k2 = k then (k, v) :: rest else (k2, v2) :: upsertA k v rest

/-- First-match lookup in an association list. -/
def lookupA (k : String) : List (String × KGNode) → Option KGNode
  | [] => none
  | (k2, v2) :: rest => if k2 = k then some v2 else lookupA k rest

def keysA (m : List (String × KGNode)) : List String :=
  m.map Prod.fst

/-- Fold the nodes of one graph into the node map, keyed by
`n["data"]["id"]`, later entries overwriting earlier ones. -/
def nodesFold (m : List (String × KGNode)) (ns : List KGNode) : List (String × KGNode) :=
  ns.foldl (fun acc n => upsertA n.data.id n acc) m

def edgeKey (e : KGEdge) : String × String × String :=
  (e.data.source, e.data.target, e.data.label)

/-- The edge union of `merge_knowledge_graphs`: all old edges are kept
(`edge_set` mirrors exactly the keys of the accumulated list), new edges
are appended when their key is unseen. -/
def mergeEdges (old new : List KGEdge) : List KGEdge :=
  new.foldl
    (fun acc e => if (acc.map edgeKey).contains (edgeKey e) then acc else acc ++ [e])
    old

/-- `merge_knowledge_graphs(old_kg, new_kg)` from `routers/research.py`. -/
def merge_knowledge_graphs : PyKG → PyKG → PyKG
  | .empty, b => b
  | a, .empty => a
  | .g A, .g B =>
    let nm := nodesFold (nodesFold [] A.nodes) B.nodes
    let fe := mergeEdges A.edges B.edges
    .g ⟨nm.map Prod.snd, fe, (nm.length, fe.length)⟩

/-- `normalize_id`: lower-case, spaces to hyphens, drop colons, strip.
The two `replace` calls act on one-character patterns, so they are a map
and a filter over the characters. -/
def normalize_id (s : String) : String :=
  strTrim ((((strLower s).toList.map fun c => if c = ' ' then '-' else c).filter
    fun c => c ≠ ':').asString)

/-- A raw node of the extractor JSON: a non-dict list entry or a dict with
optional `id` / `label` / `type` fields. -/
inductive RawNode where
  | junk
  | node (id label type : Option String)
deriving DecidableEq, Repr

/-- A raw edge of the extractor JSON. -/
inductive RawEdge where
  | junk
  | edge (source target label : Option String)
deriving DecidableEq, Repr

/-- The node loop of `finalize_graph`: input capped at 100 entries by the
caller, skip non-dicts and empty normalized ids, first occurrence of an id
wins, stop once the map holds 50 nodes. -/
def finalizeNodeLoop : List RawNode → List (String × KGNode) → List (String × KGNode)
  | [], m => m
  | .junk :: rest, m => finalizeNodeLoop rest m
  | .node i l t :: rest, m =>
    let nid := normalize_id (optStr i)
    if nid = "" then finalizeNodeLoop rest m
    else
      let m2 :=
        if (lookupA nid m).isSome then m
        else m ++ [(nid, ⟨⟨nid, pyOrStr (optStr l) (optStr i), t.getD "UNKNOWN"⟩⟩)]
      if 50 ≤ m2.length then m2 else finalizeNodeLoop rest m2

/-- The edge loop of `finalize_graph`: input capped at 200 entries, skip
non-dicts, empty components and edges whose endpoints are not in the node
map, deduplicate by `(src, tgt, rel)`, stop at 100 edges. -/
def finalizeEdgeLoop (m : List (String × KGNode)) :
    List RawEdge → List KGEdge → List KGEdge
  | [], acc => acc
  | .junk :: rest, acc => finalizeEdgeLoop m rest acc
  | .edge s t l :: rest, acc =>
    let src := normalize_id (optStr s)
    let tgt := normalize_id (optStr t)
    let rel := strTrim (optStr l)
    if src = "" ∨ tgt = "" ∨ rel = "" then finalizeEdgeLoop m rest acc
    else if (lookupA src m).isNone ∨ (lookupA tgt m).isNone then
      finalizeEdgeLoop m rest acc
    else
      let acc2 :=
        if (acc.map edgeKey).contains (src, tgt, rel) then acc
        else acc ++ [⟨⟨src, tgt, rel⟩⟩]
      if 100 ≤ acc2.length then acc2 else finalizeEdgeLoop m rest acc2

/-- `finalize_graph(kg)` on the two raw lists of an extractor payload that
passed the `isinstance(kg, dict)` guard. -/
def finalize_graph (rawNodes : List RawNode) (rawEdges : List RawEdge) : KGraph :=
  let m := finalizeNodeLoop (rawNodes.take 100) []
  let es := finalizeEdgeLoop m (rawEdges.take 200) []
  ⟨m.map Prod.snd, es, (m.length, es.length)⟩

def nodeIds (k : KGraph) : List String :=
  k.nodes.map fun n => n.data.id

/-- The endpoint invariant of the spec data model: every edge's source and
target id occur in the node set. -/
abbrev KGInv (k : KGraph) : Prop :=
  ∀ e ∈ k.edges, e.data.source ∈ nodeIds k ∧ e.data.target ∈ nodeIds k

def PyInv : PyKG → Prop
  | .empty => True
  | .g k => KGInv k

/-- A well-formed graph value in the sense of the spec data model: nodes
are keyed by id (no duplicate ids) and the `counts` pair is accurate.
Every graph the repository produces satisfies this by construction. -/
def WFKG : PyKG → Prop
  | .empty => True
  | .g k => (nodeIds k).Nodup ∧ k.counts = (k.nodes.length, k.edges.length)

/-- Concrete graphs for witness evaluation. -/
def witnessKGA : KGraph :=
  ⟨[⟨⟨"lean", "Lean", "TECH"⟩⟩, ⟨⟨"proof", "Proof", "CONCEPT"⟩⟩],
   [⟨⟨"lean", "proof", "checks"⟩⟩], (2, 1)⟩

def witnessKGB : KGraph :=
  ⟨[⟨⟨"proof", "Proofs", "CONCEPT"⟩⟩, ⟨⟨"kernel", "Kernel", "TECH"⟩⟩],
   [⟨⟨"kernel", "proof", "validates"⟩⟩], (2, 1)⟩

def witnessGraphA : PyKG := .g witnessKGA

def witnessGraphB : PyKG := .g witnessKGB

/-- Concrete extractor payload for witness evaluation: a junk entry, an id
needing normalization, and an edge referencing an unknown endpoint. -/
def witnessRawNodes : List RawNode :=
  [.node (some "Lean Prover") (some "Lean") (some "TECH"),
   .junk,
   .node (some "Kernel:Core") none none]

def witnessRawEdges : List RawEdge :=
  [.edge (some "Lean Prover") (some "kernelcore") (some "uses"),
   .edge (some "lean-prover") (some "ghost") (some "mentions"),
   .junk]

/-- Every stored entry of the node map carries its own id as its key;
invariant of the maps built by `nodesFold` and `finalizeNodeLoop`. -/
def Keyed (m : List (String × KGNode)) : Prop :=
  ∀ p ∈ m, p.2.data.id = p.1

/-- The node list of a graph as an association list keyed by node id. -/
def pairs (l : List KGNode) : List (String × KGNode) :=
  l.map fun n => (n.data.id, n)

def edgeKeys (l : List KGEdge) : List (String × String × String) :=
  l.map edgeKey

/-- The last node of `l` whose id is `k` — the value a Python dict holds at
`k` after inserting all of `l`. -/
def lastById (l : List KGNode) (k : String) : Option KGNode :=
  l.reverse.find? fun n => decide (n.data.id = k)

def orElseO (a b : Option KGNode) : Option KGNode :=
  match a with
  | some v => some v
  | none => b

/-- A vector hit whose score falls between the minimum filter and
`THRESHOLD_HIGH`, sending the pipeline into the hybrid branch. -/
def mediumScoreDoc : RawDoc :=
  ⟨some "doc", some "https://e.x/1", none, some "snippet text", some (mkRat 3 4)⟩

/-!
## Theorems

Helper lemmas first, then one theorem per claim (with witnesses and
counterexamples where the claim status requires them).
-/

theorem providerFetch_deadLive_empty (name topic : String) :
    providerFetch deadLive [] name topic = [] := by
  unfold providerFetch deadLive get_offline_results cacheToRaw
  split <;> rfl

/-- C1: the retry chain of `search_and_extract` can loop.  When both live
providers yield nothing (for instance, when their API keys are absent)
and the offline cache is empty, every unfolding of the recursion fails
again: the empty list returned by the offline-cache fallback itself
raises `ValueError`, the handler marks `duckduckgo` unhealthy and retries,
and `pick_provider` returns `duckduckgo` again, for ever.  No fuel bound
makes the recursion return, contradicting the claimed termination. -/
theorem search_and_extract_can_loop_forever (fuel : Nat) (reg : Registry) (topic : String) :
    search_and_extract_fuel deadLive fuel reg [] topic = none := by
  induction fuel generalizing reg with
  | zero => rfl
  | succ n ih =>
    have hfetch : ∀ name, providerFetch deadLive [] name topic = [] := fun name =>
      providerFetch_deadLive_empty name topic
    simp only [search_and_extract_fuel, hfetch, if_pos]
    exact ih (mark_failure (pick_provider reg) reg)

theorem taskOutcome_classified (o : TaskOracles) (topic user_id : String) :
    ((taskOutcome o topic user_id).1 = "success" ∧ (taskOutcome o topic user_id).2.1 = none) ∨
      ((taskOutcome o topic user_id).1 = "error" ∧
        ∃ m, (taskOutcome o topic user_id).2.1 = some m) := by
  unfold taskOutcome
  rcases hf : (if is_real_time_topic topic then o.realtime topic else o.search topic) with
    e | articles <;> simp only [hf]
  · simp
  · by_cases ha : articles = []
    · simp [ha]
    · simp only [ha, if_false]
      rcases hl : articleLoop o user_id articles [] [] 0 with
        ⟨sums, texts, cnt⟩ | ⟨sums, texts, msg⟩ <;> simp only [hl]
      · rcases hx : o.extract texts with e | ⟨n, m⟩ <;> simp only [hx] <;> simp
      · simp

/-- C2: `run_research_task` is a total function of its collaborators (the
shallow form of never raising past its boundary: every failing oracle call
is matched and classified), it appends exactly one history record to the
timeline, and that record is classified either as a success without error
message or as an error carrying the captured message. -/
theorem run_research_task_appends_one_classified_record
    (o : TaskOracles) (topic user_id : String) (job_id : Option String)
    (hist : List HistoryRecord) :
    ∃ rec : HistoryRecord,
      run_research_task o topic user_id job_id hist = hist ++ [rec] ∧
      (run_research_task o topic user_id job_id hist).length = hist.length + 1 ∧
      rec.status = (taskOutcome o topic user_id).1 ∧
      ((rec.status = "success" ∧ rec.error_message = none) ∨
        (rec.status = "error" ∧ ∃ m, rec.error_message = some m)) := by
  refine ⟨_, rfl, by simp [run_research_task], rfl, ?_⟩
  exact taskOutcome_classified o topic user_id

/-- C10: a run whose fetch phase returns no articles still appends a
history record, and that record carries status `success`, zero result and
graph counts, no error message and an empty summary text. -/
theorem empty_fetch_logs_success_record
    (o : TaskOracles) (topic user_id : String) (job_id : Option String)
    (hist : List HistoryRecord)
    (h : (if is_real_time_topic topic then o.realtime topic else o.search topic) = .ok []) :
    run_research_task o topic user_id job_id hist =
      hist ++ [⟨user_id, topic, job_id, "success", 0, 0, 0, none, ""⟩] := by
  unfold run_research_task taskOutcome
  rw [h]
  rfl

/-- Witness for C10 at concrete inputs: the oracles find nothing for the
topic `"ai"`, and the appended record is the zero-count success row. -/
theorem empty_fetch_logs_success_record_witness :
    run_research_task emptyFetchOracles "ai" "u1" none [] =
      [⟨"u1", "ai", none, "success", 0, 0, 0, none, ""⟩] :=
  empty_fetch_logs_success_record emptyFetchOracles "ai" "u1" none [] (by rfl)

/-- C3 (failure of the claim on the code): with one vector candidate of
score `0.75` — above the minimum filter, below `THRESHOLD_HIGH` — and
`max_results = 5`, the pipeline enters the hybrid branch, keeps the single
cached hit and then calls the one-argument `search_and_extract` imported
from `services.multi_retriever` with two arguments, so the request raises
`TypeError` instead of returning the composed hybrid source list. -/
theorem hybrid_fill_raises_type_error :
    (THRESHOLD_MINIMUM < docScore mediumScoreDoc ∧
      docScore mediumScoreDoc < THRESHOLD_HIGH) ∧
    retrieveDecision [] [mediumScoreDoc] 5 = .error searchArityError := by
  constructor
  · constructor <;> decide
  · rfl

/-- C5 (failure of the claim on the code): with an empty vector-candidate
list, `max_results = 5` and a realtime dispatcher that finds nothing, the
web branch is taken but its provider-search fill makes the same
two-argument call of the one-argument `search_and_extract`, so the request
raises `TypeError` instead of returning the `web` strategy. -/
theorem web_fill_raises_type_error :
    retrieveDecision [] [] 5 = .error searchArityError := by
  rfl

theorem succUpdate_weight (p : Provider) :
    (succUpdate p).weight = pymin 1 (p.weight + mkRat 1 20) := by
  unfold succUpdate
  cases p.quota <;> rfl

theorem mem_updateProvider (n : String) (f : Provider → Provider) (reg : Registry)
    (e : String × Provider) (he : e ∈ updateProvider n f reg) :
    e ∈ reg ∨ ∃ x, x ∈ reg ∧ e = (x.1, f x.2) := by
  simp only [updateProvider, List.mem_map] at he
  obtain ⟨x, hx, hxe⟩ := he
  by_cases hn : x.1 = n
  · right
    exact ⟨x, hx, by rw [← hxe, if_pos hn]⟩
  · left
    rw [← hxe, if_neg hn]
    exact hx

theorem weight_range_step (reg : Registry) (op : RouterOp)
    (h : ∀ e ∈ reg, mkRat 1 10 ≤ e.2.weight ∧ e.2.weight ≤ 1) :
    ∀ e ∈ applyOp reg op, mkRat 1 10 ≤ e.2.weight ∧ e.2.weight ≤ 1 := by
  have hq : (mkRat 1 10 : Rat) = 1 / 10 := by
    rw [Rat.mkRat_eq_div]
    norm_num
  have h20 : (mkRat 1 20 : Rat) = 1 / 20 := by
    rw [Rat.mkRat_eq_div]
    norm_num
  have hsucc : ∀ p : Provider, mkRat 1 10 ≤ p.weight → p.weight ≤ 1 →
      mkRat 1 10 ≤ (succUpdate p).weight ∧ (succUpdate p).weight ≤ 1 := by
    intro p h1 h2
    rw [succUpdate_weight]
    simp only [pymin]
    rw [hq] at h1 ⊢
    rw [h20]
    split <;> constructor <;> linarith
  have hfail : ∀ p : Provider, mkRat 1 10 ≤ p.weight → p.weight ≤ 1 →
      mkRat 1 10 ≤ (failUpdate p).weight ∧ (failUpdate p).weight ≤ 1 := by
    intro p h1 h2
    show mkRat 1 10 ≤ pymax (mkRat 1 10) (p.weight - mkRat 1 10) ∧
      pymax (mkRat 1 10) (p.weight - mkRat 1 10) ≤ 1
    simp only [pymax]
    rw [hq] at h1 ⊢
    split <;> constructor <;> linarith
  intro e he
  rcases op with n | n
  · rcases mem_updateProvider n succUpdate reg e he with h1 | ⟨x, hx, rfl⟩
    · exact h e h1
    · exact hsucc x.2 (h x hx).1 (h x hx).2
  · rcases mem_updateProvider n failUpdate reg e he with h1 | ⟨x, hx, rfl⟩
    · exact h e h1
    · exact hfail x.2 (h x hx).1 (h x hx).2

theorem weight_range_fold (ops : List RouterOp) :
    ∀ reg : Registry, (∀ e ∈ reg, mkRat 1 10 ≤ e.2.weight ∧ e.2.weight ≤ 1) →
      ∀ e ∈ ops.foldl applyOp reg, mkRat 1 10 ≤ e.2.weight ∧ e.2.weight ≤ 1 := by
  induction ops with
  | nil => exact fun reg h => h
  | cons op rest ih => exact fun reg h => ih _ (weight_range_step reg op h)

/-- C6: starting from the initial provider configuration, every provider
weight stays in the interval `[0.1, 1.0]` after any sequence of
`mark_success` / `mark_failure` calls: the success increment is capped at
`1.0` and the failure decrement is floored at `0.1`. -/
theorem provider_weight_stays_in_range (ops : List RouterOp) (e : String × Provider)
    (he : e ∈ applyOps ops) : mkRat 1 10 ≤ e.2.weight ∧ e.2.weight ≤ 1 :=
  weight_range_fold ops SEARCH_PROVIDERS (by decide) e he

unseal Rat.add Rat.sub

/-- Witness for C6 at a concrete operation sequence: after one failure of
`serpapi` its weight is `0.9`, inside the interval. -/
theorem provider_weight_stays_in_range_witness :
    mkRat 1 10 ≤ (Provider.mk (mkRat 9 10) (some 100) false).weight ∧
      (Provider.mk (mkRat 9 10) (some 100) false).weight ≤ 1 :=
  provider_weight_stays_in_range [.failure "serpapi"]
    ("serpapi", Provider.mk (mkRat 9 10) (some 100) false) (by decide)

def healthyQuotaInv (reg : Registry) : Prop :=
  ∀ e ∈ reg, e.2.healthy = true → quota_ok e.2 = true

theorem healthyQuotaInv_step (reg : Registry) (op : RouterOp)
    (h : healthyQuotaInv reg) : healthyQuotaInv (applyOp reg op) := by
  intro e he hh
  rcases op with n | n
  · rcases mem_updateProvider n succUpdate reg e he with h1 | ⟨x, hx, rfl⟩
    · exact h e h1 hh
    · cases hq : x.2.quota with
      | none => simp [quota_ok, succUpdate, hq]
      | some q =>
        simp only [succUpdate, hq] at hh ⊢
        simpa [quota_ok] using hh
  · rcases mem_updateProvider n failUpdate reg e he with h1 | ⟨x, hx, rfl⟩
    · exact h e h1 hh
    · simp [failUpdate] at hh

theorem healthyQuotaInv_fold (ops : List RouterOp) :
    ∀ reg : Registry, healthyQuotaInv reg → healthyQuotaInv (ops.foldl applyOp reg) := by
  induction ops with
  | nil => exact fun reg h => h
  | cons op rest ih => exact fun reg h => ih _ (healthyQuotaInv_step reg op h)

theorem healthyQuotaInv_applyOps (ops : List RouterOp) :
    healthyQuotaInv (applyOps ops) :=
  healthyQuotaInv_fold ops SEARCH_PROVIDERS (by
    unfold healthyQuotaInv
    decide)

theorem foldl_best_spec (cs : List (String × Provider)) :
    ∀ c : String × Provider,
      (cs.foldl (fun best x => if best.2.weight < x.2.weight then x else best) c) ∈ c :: cs ∧
      ∀ x ∈ c :: cs,
        x.2.weight ≤ (cs.foldl (fun best x => if best.2.weight < x.2.weight then x else best) c).2.weight := by
  induction cs with
  | nil =>
    intro c
    constructor
    · exact List.mem_singleton.mpr rfl
    · intro x hx
      rw [List.mem_singleton] at hx
      subst hx
      exact le_refl _
  | cons y ys ih =>
    intro c
    simp only [List.foldl_cons]
    obtain ⟨hmem, hmax⟩ := ih (if c.2.weight < y.2.weight then y else c)
    have hcy : c.2.weight ≤ (if c.2.weight < y.2.weight then y else c).2.weight ∧
        y.2.weight ≤ (if c.2.weight < y.2.weight then y else c).2.weight := by
      split
      · next hlt => exact ⟨le_of_lt hlt, le_refl _⟩
      · next hlt => exact ⟨le_refl _, le_of_not_lt hlt⟩
    constructor
    · rcases List.mem_cons.mp hmem with h1 | h1
      · rw [h1]
        split
        · exact List.mem_cons_of_mem _ (List.mem_cons_self _ _)
        · exact List.mem_cons_self _ _
      · exact List.mem_cons_of_mem _ (List.mem_cons_of_mem _ h1)
    · intro x hx
      rcases List.mem_cons.mp hx with rfl | hx2
      · exact le_trans hcy.1 (hmax _ (List.mem_cons_self _ _))
      · rcases List.mem_cons.mp hx2 with rfl | hx3
        · exact le_trans hcy.2 (hmax _ (List.mem_cons_self _ _))
        · exact hmax _ (List.mem_cons_of_mem _ hx3)

theorem mem_of_mem_candidates (reg : Registry) (e : String × Provider)
    (he : e ∈ candidates reg) :
    e ∈ reg ∧ e.2.healthy = true ∧ quota_ok e.2 = true := by
  simp only [candidates, List.mem_filter, Bool.and_eq_true] at he
  exact ⟨he.1, he.2.1, he.2.2⟩

/-- C7: over every state reachable from the initial configuration by
`mark_success` / `mark_failure` calls, `pick_provider` returns the
designated fallback `"duckduckgo"` when every provider is unhealthy, and
otherwise returns the name of a healthy provider with non-exhausted quota
whose weight is maximal among all such providers (so it never returns an
unhealthy provider while a healthy one exists). -/
theorem pick_provider_spec (ops : List RouterOp) :
    ((∀ e ∈ applyOps ops, e.2.healthy = false) →
        pick_provider (applyOps ops) = "duckduckgo") ∧
    ((∃ e ∈ applyOps ops, e.2.healthy = true) →
      ∃ e ∈ applyOps ops, pick_provider (applyOps ops) = e.1 ∧
        e.2.healthy = true ∧ quota_ok e.2 = true ∧
        ∀ c ∈ applyOps ops, c.2.healthy = true → quota_ok c.2 = true →
          c.2.weight ≤ e.2.weight) := by
  constructor
  · intro hall
    have hnil : candidates (applyOps ops) = [] := by
      simp only [candidates, List.filter_eq_nil_iff]
      intro a ha
      simp [hall a ha]
    unfold pick_provider
    rw [hnil]
  · rintro ⟨e0, he0, hh0⟩
    have hinv := healthyQuotaInv_applyOps ops
    have hq0 : quota_ok e0.2 = true := hinv e0 he0 hh0
    have hmem0 : e0 ∈ candidates (applyOps ops) := by
      simp only [candidates, List.mem_filter, Bool.and_eq_true]
      exact ⟨he0, hh0, hq0⟩
    cases hf : candidates (applyOps ops) with
    | nil =>
      rw [hf] at hmem0
      cases hmem0
    | cons c cs =>
      obtain ⟨hbm, hbmax⟩ := foldl_best_spec cs c
      have hbc : (cs.foldl (fun best x => if best.2.weight < x.2.weight then x else best) c) ∈
          candidates (applyOps ops) := by
        rw [hf]
        exact hbm
      obtain ⟨hbreg, hbh, hbq⟩ := mem_of_mem_candidates _ _ hbc
      refine ⟨_, hbreg, ?_, hbh, hbq, ?_⟩
      · unfold pick_provider
        rw [hf]
      · intro x hx hxh hxq
        have hxc : x ∈ candidates (applyOps ops) := by
          simp only [candidates, List.mem_filter, Bool.and_eq_true]
          exact ⟨hx, hxh, hxq⟩
        rw [hf] at hxc
        exact hbmax x hxc

/-- Witness for C7 at concrete operation sequences: after all three
providers fail, the fallback is picked; in the initial state, the chosen
provider is the healthy maximal-weight `serpapi`. -/
theorem pick_provider_spec_witness :
    pick_provider (applyOps [.failure "serpapi", .failure "brave", .failure "duckduckgo"]) =
      "duckduckgo" ∧
    ∃ e ∈ applyOps [], pick_provider (applyOps []) = e.1 ∧
      e.2.healthy = true ∧ quota_ok e.2 = true ∧
      ∀ c ∈ applyOps [], c.2.healthy = true → quota_ok c.2 = true →
        c.2.weight ≤ e.2.weight :=
  ⟨(pick_provider_spec [.failure "serpapi", .failure "brave", .failure "duckduckgo"]).1
      (by decide),
   (pick_provider_spec []).2 ⟨("serpapi", Provider.mk 1 (some 100) true), by decide, rfl⟩⟩

theorem length_insertDesc (key : RunRecord → Int) (r : RunRecord) (l : List RunRecord) :
    (insertDesc key r l).length = l.length + 1 := by
  induction l with
  | nil => rfl
  | cons x xs ih =>
    unfold insertDesc
    split
    · rfl
    · simpa using ih

theorem length_sortDesc (key : RunRecord → Int) (l : List RunRecord) :
    (sortDesc key l).length = l.length := by
  induction l with
  | nil => rfl
  | cons x xs ih =>
    show (insertDesc key x (sortDesc key xs)).length = xs.length + 1
    rw [length_insertDesc, ih]

/-- C4 (counterexample): the diff endpoint orders the job history by
`run_started_at`, not by finish time as the claim states.  On a history
with a long first run (started earlier, finished later) and a short second
run, the endpoint and the finish-time specification return different
responses: the endpoint calls the short run the latest, the claim says the
long run is. -/
theorem diff_orders_by_start_not_finish :
    (diff_last_two_runs constLLM [longRun, shortRun]).toOption ≠
      (diffByFinishSpec constLLM [longRun, shortRun]).toOption := by
  decide

/-- C4 (amended): `diff(job_id)` fetches the two most recent history
records ordered by run START time descending; with fewer than two records
it signals the not-enough-history condition; otherwise it returns the
numeric delta over result count and graph node/edge counts together with
the natural-language comparison exactly when both runs' summaries are
non-empty (and a fixed warning text otherwise). -/
theorem diff_last_two_runs_spec (llm : String → String → String → String)
    (hist : List RunRecord) :
    (hist.length ≤ 1 → diff_last_two_runs llm hist = .error "Not enough runs to compare") ∧
    (2 ≤ hist.length →
      ∃ latest previous,
        (sortDesc (fun r => r.run_started_at) hist).take 2 = [latest, previous] ∧
        diff_last_two_runs llm hist = .ok
          ⟨latest, previous,
           ⟨latest.result_count - previous.result_count,
            latest.kg_nodes - previous.kg_nodes,
            latest.kg_edges - previous.kg_edges,
            latest.status, previous.status,
            latest.run_finished_at, previous.run_finished_at⟩,
           if previous.full_summary_text = "" ∨ latest.full_summary_text = "" then
             missingSummaryNote
           else
             llm previous.full_summary_text latest.full_summary_text
               (pyOrStr latest.topic (pyOrStr previous.topic "Unknown"))⟩) := by
  have hslen := length_sortDesc (fun r => r.run_started_at) hist
  constructor
  · intro hlen
    rcases hs : sortDesc (fun r => r.run_started_at) hist with _ | ⟨a, _ | ⟨b, tail⟩⟩
    · unfold diff_last_two_runs
      rw [hs]
      rfl
    · unfold diff_last_two_runs
      rw [hs]
      rfl
    · rw [hs] at hslen
      simp only [List.length_cons] at hslen
      omega
  · intro hlen
    rcases hs : sortDesc (fun r => r.run_started_at) hist with _ | ⟨a, _ | ⟨b, tail⟩⟩
    · rw [hs] at hslen
      simp only [List.length_nil] at hslen
      omega
    · rw [hs] at hslen
      simp only [List.length_singleton] at hslen
      omega
    · refine ⟨a, b, rfl, ?_⟩
      unfold diff_last_two_runs
      rw [hs]
      show (if b.full_summary_text = "" ∨ a.full_summary_text = "" then _ else _) = _
      by_cases hc : b.full_summary_text = "" ∨ a.full_summary_text = ""
      · rw [if_pos hc, if_pos hc]
        rfl
      · rw [if_neg hc, if_neg hc]
        rfl

theorem lookupA_upsertA (j k : String) (v : KGNode) (m : List (String × KGNode)) :
    lookupA k (upsertA j v m) = if j = k then some v else lookupA k m := by
  induction m with
  | nil => rfl
  | cons p rest ih =>
    obtain ⟨k2, v2⟩ := p
    by_cases h2 : k2 = j
    · subst h2
      simp only [upsertA, if_pos rfl, lookupA]
      by_cases hk : k2 = k <;> simp [hk]
    · simp only [upsertA, if_neg h2, lookupA, ih]
      by_cases hk : k2 = k
      · subst hk
        rw [if_pos rfl, if_neg (fun h => h2 h.symm), if_pos rfl]
      · rw [if_neg hk]
        by_cases hj : j = k
        · rw [if_pos hj, if_pos hj]
        · rw [if_neg hj, if_neg hj, if_neg hk]

theorem keysA_upsertA (j : String) (v : KGNode) (m : List (String × KGNode)) :
    keysA (upsertA j v m) = if j ∈ keysA m then keysA m else keysA m ++ [j] := by
  induction m with
  | nil => rfl
  | cons p rest ih =>
    obtain ⟨k2, v2⟩ := p
    by_cases h2 : k2 = j
    · subst h2
      simp [upsertA, keysA]
    · simp only [upsertA, if_neg h2, keysA, List.map_cons] at ih ⊢
      rw [ih]
      have hne : j ≠ k2 := fun h => h2 h.symm
      by_cases hm : j ∈ List.map Prod.fst rest
      · rw [if_pos hm, if_pos (List.mem_cons_of_mem _ hm)]
      · rw [if_neg hm, if_neg (by simp [List.mem_cons, hne, hm])]
        simp

theorem upsertA_of_not_mem (j : String) (v : KGNode) (m : List (String × KGNode))
    (h : j ∉ keysA m) : upsertA j v m = m ++ [(j, v)] := by
  induction m with
  | nil => rfl
  | cons p rest ih =>
    obtain ⟨k2, v2⟩ := p
    simp only [keysA, List.map_cons, List.mem_cons, not_or] at h
    rw [upsertA, if_neg (fun hh => h.1 hh.symm)]
    rw [ih h.2]
    rfl

theorem upsertA_lookup_self (j : String) (v : KGNode) (m : List (String × KGNode))
    (h : lookupA j m = some v) : upsertA j v m = m := by
  induction m with
  | nil => cases h
  | cons p rest ih =>
    obtain ⟨k2, v2⟩ := p
    by_cases h2 : k2 = j
    · subst h2
      rw [lookupA, if_pos rfl] at h
      obtain rfl : v2 = v := Option.some.inj h
      rw [upsertA, if_pos rfl]
    · rw [lookupA, if_neg h2] at h
      rw [upsertA, if_neg h2, ih h]

theorem lookupA_eq_none (k : String) (m : List (String × KGNode))
    (h : k ∉ keysA m) : lookupA k m = none := by
  induction m with
  | nil => rfl
  | cons p rest ih =>
    obtain ⟨k2, v2⟩ := p
    simp only [keysA, List.map_cons, List.mem_cons, not_or] at h
    rw [lookupA, if_neg (fun hh => h.1 hh.symm)]
    exact ih h.2

theorem nodup_keysA_upsertA (j : String) (v : KGNode) (m : List (String × KGNode))
    (h : (keysA m).Nodup) : (keysA (upsertA j v m)).Nodup := by
  rw [keysA_upsertA]
  split
  · exact h
  · next hj =>
    simp only [List.nodup_append, List.nodup_singleton]
    refine ⟨h, trivial, fun a ha hb => ?_⟩
    rw [List.mem_singleton] at hb
    subst hb
    exact hj ha

theorem keyed_upsertA (v : KGNode) (m : List (String × KGNode))
    (h : Keyed m) : Keyed (upsertA v.data.id v m) := by
  induction m with
  | nil =>
    intro p hp
    rw [upsertA] at hp
    simp only [List.mem_singleton] at hp
    subst hp
    rfl
  | cons q rest ih =>
    obtain ⟨k2, v2⟩ := q
    have hrest : Keyed rest := fun p hp => h p (List.mem_cons_of_mem _ hp)
    by_cases h2 : k2 = v.data.id
    · subst h2
      rw [upsertA, if_pos rfl]
      intro p hp
      rcases List.mem_cons.mp hp with rfl | hp2
      · rfl
      · exact h p (List.mem_cons_of_mem _ hp2)
    · rw [upsertA, if_neg h2]
      intro p hp
      rcases List.mem_cons.mp hp with rfl | hp2
      · exact h _ (List.mem_cons_self _ _)
      · exact ih hrest p hp2

theorem lookupA_nodesFold (l : List KGNode) (m : List (String × KGNode)) (k : String) :
    lookupA k (nodesFold m l) = orElseO (lastById l k) (lookupA k m) := by
  induction l generalizing m with
  | nil => rfl
  | cons n rest ih =>
    show lookupA k (nodesFold (upsertA n.data.id n m) rest) = _
    rw [ih]
    have hlast : lastById (n :: rest) k =
        orElseO (lastById rest k) (if n.data.id = k then some n else none) := by
      unfold lastById
      rw [List.reverse_cons, List.find?_append]
      cases hr : List.find? (fun x => decide (x.data.id = k)) rest.reverse with
      | none =>
        by_cases hn : n.data.id = k <;>
          simp [orElseO, List.find?_cons, hn, Option.none_or]
      | some w =>
        simp [orElseO, Option.or_some]
    rw [hlast, lookupA_upsertA]
    cases hr : lastById rest k with
    | none =>
      by_cases hn : n.data.id = k <;> simp [orElseO, hn]
    | some w => simp [orElseO]

theorem keysA_nodesFold_sub (l : List KGNode) (m : List (String × KGNode)) :
    ∀ k ∈ keysA m, k ∈ keysA (nodesFold m l) := by
  induction l generalizing m with
  | nil => exact fun k hk => hk
  | cons n rest ih =>
    intro k hk
    show k ∈ keysA (nodesFold (upsertA n.data.id n m) rest)
    apply ih
    rw [keysA_upsertA]
    split
    · exact hk
    · exact List.mem_append_left _ hk

theorem mem_keysA_nodesFold (l : List KGNode) (m : List (String × KGNode)) :
    ∀ n ∈ l, n.data.id ∈ keysA (nodesFold m l) := by
  induction l generalizing m with
  | nil => intro n hn; cases hn
  | cons x rest ih =>
    intro n hn
    rcases List.mem_cons.mp hn with rfl | hn2
    · show n.data.id ∈ keysA (nodesFold (upsertA n.data.id n m) rest)
      apply keysA_nodesFold_sub
      rw [keysA_upsertA]
      split
      · assumption
      · exact List.mem_append_right _ (List.mem_singleton.mpr rfl)
    · exact ih _ n hn2

theorem keysA_nodesFold_of_mem (l : List KGNode) (m : List (String × KGNode))
    (h : ∀ n ∈ l, n.data.id ∈ keysA m) : keysA (nodesFold m l) = keysA m := by
  induction l generalizing m with
  | nil => rfl
  | cons n rest ih =>
    show keysA (nodesFold (upsertA n.data.id n m) rest) = _
    have hk : keysA (upsertA n.data.id n m) = keysA m := by
      rw [keysA_upsertA, if_pos (h n (List.mem_cons_self _ _))]
    rw [ih _ (fun x hx => hk ▸ h x (List.mem_cons_of_mem _ hx)), hk]

theorem nodup_keysA_nodesFold (l : List KGNode) (m : List (String × KGNode))
    (h : (keysA m).Nodup) : (keysA (nodesFold m l)).Nodup := by
  induction l generalizing m with
  | nil => exact h
  | cons n rest ih => exact ih _ (nodup_keysA_upsertA _ _ _ h)

theorem keyed_nodesFold (l : List KGNode) (m : List (String × KGNode))
    (h : Keyed m) : Keyed (nodesFold m l) := by
  induction l generalizing m with
  | nil => exact h
  | cons n rest ih => exact ih _ (keyed_upsertA _ _ h)

theorem assoc_ext (m1 : List (String × KGNode)) :
    ∀ m2 : List (String × KGNode), (keysA m1).Nodup → keysA m1 = keysA m2 →
      (∀ k, lookupA k m1 = lookupA k m2) → m1 = m2 := by
  induction m1 with
  | nil =>
    intro m2 _ hk _
    cases m2 with
    | nil => rfl
    | cons p rest => simp [keysA] at hk
  | cons p rest ih =>
    intro m2 hu hk hl
    obtain ⟨k1, v1⟩ := p
    cases m2 with
    | nil => simp [keysA] at hk
    | cons q rest2 =>
      obtain ⟨k2, v2⟩ := q
      simp only [keysA, List.map_cons, List.cons.injEq] at hk
      obtain ⟨rfl, hkrest⟩ := hk
      have hv := hl k1
      rw [lookupA, if_pos rfl, lookupA, if_pos rfl] at hv
      obtain rfl : v1 = v2 := Option.some.inj hv
      simp only [keysA, List.map_cons, List.nodup_cons] at hu
      have htail : rest = rest2 := by
        refine ih rest2 hu.2 hkrest fun k => ?_
        by_cases hkk : k = k1
        · subst hkk
          rw [lookupA_eq_none k rest hu.1,
            lookupA_eq_none k rest2 (by simpa [keysA, ← hkrest] using hu.1)]
        · have hlk := hl k
          rw [lookupA, if_neg (fun h => hkk h.symm), lookupA,
            if_neg (fun h => hkk h.symm)] at hlk
          exact hlk
      rw [htail]

theorem nodesFold_append_pairs (l : List KGNode) :
    ∀ acc : List (String × KGNode),
      (∀ n ∈ l, n.data.id ∉ keysA acc) →
      (l.map fun n => n.data.id).Nodup →
      nodesFold acc l = acc ++ pairs l := by
  induction l with
  | nil =>
    intro acc _ _
    simp [nodesFold, pairs]
  | cons n rest ih =>
    intro acc hd hu
    show nodesFold (upsertA n.data.id n acc) rest = _
    rw [upsertA_of_not_mem _ _ _ (hd n (List.mem_cons_self _ _))]
    simp only [List.map_cons, List.nodup_cons] at hu
    rw [ih (acc ++ [(n.data.id, n)]) ?_ hu.2]
    · simp [pairs]
    · intro x hx
      simp only [keysA, List.map_append, List.mem_append, not_or]
      refine ⟨hd x (List.mem_cons_of_mem _ hx), ?_⟩
      simp only [List.map_cons, List.map_nil, List.mem_singleton]
      intro hEq
      exact hu.1 (hEq ▸ List.mem_map_of_mem _ hx)

theorem map_snd_pairs (l : List KGNode) : (pairs l).map Prod.snd = l := by
  induction l with
  | nil => rfl
  | cons n rest ih => simp only [pairs, List.map_cons] at ih ⊢; rw [ih]

theorem pairs_values (m : List (String × KGNode)) (hk : Keyed m) :
    pairs (m.map Prod.snd) = m := by
  induction m with
  | nil => rfl
  | cons p rest ih =>
    have hp : p.2.data.id = p.1 := hk p (List.mem_cons_self _ _)
    have hrest := ih fun q hq => hk q (List.mem_cons_of_mem _ hq)
    simp only [pairs, List.map_cons] at hrest ⊢
    rw [hrest, hp]

theorem keysA_eq_ids (m : List (String × KGNode)) (hk : Keyed m) :
    (m.map Prod.snd).map (fun n => n.data.id) = keysA m := by
  induction m with
  | nil => rfl
  | cons p rest ih =>
    have hp : p.2.data.id = p.1 := hk p (List.mem_cons_self _ _)
    have hrest := ih fun q hq => hk q (List.mem_cons_of_mem _ hq)
    simp only [keysA, List.map_cons] at hrest ⊢
    rw [hrest, hp]

theorem nodesFold_values (m : List (String × KGNode))
    (hu : (keysA m).Nodup) (hk : Keyed m) :
    nodesFold [] (m.map Prod.snd) = m := by
  rw [nodesFold_append_pairs (m.map Prod.snd) []
      (fun n _ hn => absurd hn (List.not_mem_nil _))
      (by rw [keysA_eq_ids m hk]; exact hu)]
  rw [List.nil_append, pairs_values m hk]

theorem nodesFold_idem (l : List KGNode) (m : List (String × KGNode))
    (hu : (keysA m).Nodup) :
    nodesFold (nodesFold m l) l = nodesFold m l := by
  apply assoc_ext
  · exact nodup_keysA_nodesFold _ _ (nodup_keysA_nodesFold _ _ hu)
  · exact keysA_nodesFold_of_mem _ _ (mem_keysA_nodesFold l m)
  · intro k
    simp only [lookupA_nodesFold]
    cases lastById l k <;> simp [orElseO]

theorem edgeKeys_mergeEdges_sub (new : List KGEdge) :
    ∀ old : List KGEdge, ∀ x ∈ edgeKeys old, x ∈ edgeKeys (mergeEdges old new) := by
  induction new with
  | nil => exact fun old x hx => hx
  | cons e rest ih =>
    intro old x hx
    show x ∈ edgeKeys (List.foldl _ _ rest)
    have hstep : x ∈ edgeKeys (if (old.map edgeKey).contains (edgeKey e) then old
        else old ++ [e]) := by
      split
      · exact hx
      · simp only [edgeKeys, List.map_append, List.mem_append] at hx ⊢
        exact Or.inl hx
    exact ih _ x hstep

theorem mem_edgeKeys_mergeEdges (new : List KGEdge) :
    ∀ old : List KGEdge, ∀ e ∈ new, edgeKey e ∈ edgeKeys (mergeEdges old new) := by
  induction new with
  | nil => intro old e he; cases he
  | cons x rest ih =>
    intro old e he
    rcases List.mem_cons.mp he with rfl | he2
    · have hstep : edgeKey e ∈ edgeKeys (if (old.map edgeKey).contains (edgeKey e) then old
          else old ++ [e]) := by
        split
        · next hc => simpa [edgeKeys] using List.mem_of_elem_eq_true hc
        · simp [edgeKeys]
      show edgeKey e ∈ edgeKeys (mergeEdges
        (if (old.map edgeKey).contains (edgeKey e) then old else old ++ [e]) rest)
      exact edgeKeys_mergeEdges_sub rest _ _ hstep
    · exact ih _ e he2

theorem mergeEdges_eq_of_sub (new : List KGEdge) (old : List KGEdge)
    (h : ∀ e ∈ new, edgeKey e ∈ edgeKeys old) : mergeEdges old new = old := by
  induction new with
  | nil => rfl
  | cons x rest ih =>
    have hx : (old.map edgeKey).contains (edgeKey x) = true := by
      have := h x (List.mem_cons_self _ _)
      simp only [edgeKeys] at this
      exact List.elem_eq_true_of_mem this
    show List.foldl _ (if (old.map edgeKey).contains (edgeKey x) then old
        else old ++ [x]) rest = old
    rw [if_pos hx]
    exact ih fun e he => h e (List.mem_cons_of_mem _ he)

theorem mem_of_mem_mergeEdges (new : List KGEdge) :
    ∀ old : List KGEdge, ∀ e ∈ mergeEdges old new, e ∈ old ∨ e ∈ new := by
  induction new with
  | nil => exact fun old e he => Or.inl he
  | cons x rest ih =>
    intro old e he
    rcases ih (if (old.map edgeKey).contains (edgeKey x) then old else old ++ [x]) e he with
      h1 | h1
    · revert h1
      split
      · exact fun h1 => Or.inl h1
      · intro h1
        rcases List.mem_append.mp h1 with h2 | h2
        · exact Or.inl h2
        · exact Or.inr (List.mem_singleton.mp h2 ▸ List.mem_cons_self _ _)
    · exact Or.inr (List.mem_cons_of_mem _ h1)

/-- C8: merging the same new graph twice changes nothing:
`merge(merge(A, B), B) = merge(A, B)` for all knowledge graphs `A` and `B`
(graphs of the data model: node lists keyed by id and an accurate counts
pair, as every graph the repository produces satisfies).  The node union
is last-write-wins keyed by id and the edge union is first-seen-wins keyed
by `(source, target, label)`, so re-merging identical input grows
nothing. -/
theorem merge_knowledge_graphs_idempotent (A B : PyKG) (hA : WFKG A) (hB : WFKG B) :
    merge_knowledge_graphs (merge_knowledge_graphs A B) B = merge_knowledge_graphs A B := by
  cases A with
  | empty =>
    cases B with
    | empty => rfl
    | g K =>
      obtain ⟨ns, es, cnt⟩ := K
      obtain ⟨hu, hc⟩ := hB
      show merge_knowledge_graphs (.g ⟨ns, es, cnt⟩) (.g ⟨ns, es, cnt⟩) = .g ⟨ns, es, cnt⟩
      simp only [merge_knowledge_graphs]
      have hn0 : nodesFold [] ns = pairs ns := by
        have := nodesFold_append_pairs ns []
          (fun n _ hn => absurd hn (List.not_mem_nil _)) hu
        simpa using this
      have hn1 : nodesFold (nodesFold [] ns) ns = nodesFold [] ns :=
        nodesFold_idem ns [] List.nodup_nil
      have he1 : mergeEdges es es = es :=
        mergeEdges_eq_of_sub es es fun e he => List.mem_map_of_mem edgeKey he
      rw [hn1, hn0, he1, map_snd_pairs]
      have hlen : (pairs ns).length = ns.length := by
        simp [pairs]
      rw [hlen]
      simp only at hc
      rw [hc]
  | g A0 =>
    cases B with
    | empty => rfl
    | g B0 =>
      have hm1u : (keysA (nodesFold [] A0.nodes)).Nodup :=
        nodup_keysA_nodesFold _ _ List.nodup_nil
      have hnmu : (keysA (nodesFold (nodesFold [] A0.nodes) B0.nodes)).Nodup :=
        nodup_keysA_nodesFold _ _ hm1u
      have hkeyed : Keyed (nodesFold (nodesFold [] A0.nodes) B0.nodes) :=
        keyed_nodesFold _ _ (keyed_nodesFold _ _ fun p hp => absurd hp (List.not_mem_nil p))
      have hstep1 : nodesFold [] ((nodesFold (nodesFold [] A0.nodes) B0.nodes).map Prod.snd)
          = nodesFold (nodesFold [] A0.nodes) B0.nodes :=
        nodesFold_values _ hnmu hkeyed
      have hstep2 : nodesFold (nodesFold (nodesFold [] A0.nodes) B0.nodes) B0.nodes
          = nodesFold (nodesFold [] A0.nodes) B0.nodes :=
        nodesFold_idem _ _ hm1u
      have hedges : mergeEdges (mergeEdges A0.edges B0.edges) B0.edges
          = mergeEdges A0.edges B0.edges :=
        mergeEdges_eq_of_sub _ _ fun e he => mem_edgeKeys_mergeEdges _ _ e he
      simp only [merge_knowledge_graphs]
      rw [hstep1, hstep2, hedges]

/-- Witness for C8 at two concrete well-formed graphs sharing a node id
and an edge key. -/
theorem merge_knowledge_graphs_idempotent_witness :
    merge_knowledge_graphs (merge_knowledge_graphs witnessGraphA witnessGraphB) witnessGraphB =
      merge_knowledge_graphs witnessGraphA witnessGraphB :=
  merge_knowledge_graphs_idempotent witnessGraphA witnessGraphB
    ⟨by decide, rfl⟩ ⟨by decide, rfl⟩

theorem keyed_finalizeNodeLoop (l : List RawNode) :
    ∀ m, Keyed m → Keyed (finalizeNodeLoop l m) := by
  induction l with
  | nil => exact fun m h => h
  | cons x rest ih =>
    intro m hm
    cases x with
    | junk => exact ih m hm
    | node i lb t =>
      simp only [finalizeNodeLoop]
      by_cases hnid : normalize_id (optStr i) = ""
      · rw [if_pos hnid]
        exact ih m hm
      · rw [if_neg hnid]
        set m2 := if (lookupA (normalize_id (optStr i)) m).isSome then m
            else m ++ [(normalize_id (optStr i),
              ⟨⟨normalize_id (optStr i), pyOrStr (optStr lb) (optStr i),
                t.getD "UNKNOWN"⟩⟩)] with hm2def
        have hm2 : Keyed m2 := by
          rw [hm2def]
          split
          · exact hm
          · intro p hp
            rcases List.mem_append.mp hp with h1 | h1
            · exact hm p h1
            · rw [List.mem_singleton] at h1
              subst h1
              rfl
        split
        · exact hm2
        · exact ih _ hm2

theorem mem_keysA_of_lookup_isSome (k : String) (m : List (String × KGNode))
    (h : (lookupA k m).isSome) : k ∈ keysA m := by
  by_contra hc
  rw [lookupA_eq_none k m hc] at h
  simp at h

theorem finalizeEdgeLoop_endpoints (m : List (String × KGNode)) (l : List RawEdge) :
    ∀ acc, (∀ e ∈ acc, (lookupA e.data.source m).isSome ∧ (lookupA e.data.target m).isSome) →
      ∀ e ∈ finalizeEdgeLoop m l acc,
        (lookupA e.data.source m).isSome ∧ (lookupA e.data.target m).isSome := by
  induction l with
  | nil => exact fun acc hacc => hacc
  | cons x rest ih =>
    intro acc hacc
    cases x with
    | junk => exact ih acc hacc
    | edge s t lb =>
      simp only [finalizeEdgeLoop]
      split
      · exact ih acc hacc
      · split
        · exact ih acc hacc
        · next hsk =>
          rw [not_or] at hsk
          have hsrc : (lookupA (normalize_id (optStr s)) m).isSome := by
            cases hL : lookupA (normalize_id (optStr s)) m with
            | none => exact absurd (by rw [hL]; rfl) hsk.1
            | some w => rfl
          have htgt : (lookupA (normalize_id (optStr t)) m).isSome := by
            cases hL : lookupA (normalize_id (optStr t)) m with
            | none => exact absurd (by rw [hL]; rfl) hsk.2
            | some w => rfl
          set acc2 := if (acc.map edgeKey).contains
                (normalize_id (optStr s), normalize_id (optStr t), strTrim (optStr lb)) then acc
              else acc ++ [⟨⟨normalize_id (optStr s), normalize_id (optStr t),
                strTrim (optStr lb)⟩⟩] with hacc2def
          have hacc2 : ∀ e ∈ acc2,
              (lookupA e.data.source m).isSome ∧ (lookupA e.data.target m).isSome := by
            rw [hacc2def]
            split
            · exact hacc
            · intro e he
              rcases List.mem_append.mp he with h1 | h1
              · exact hacc e h1
              · rw [List.mem_singleton] at h1
                subst h1
                exact ⟨hsrc, htgt⟩
          split
          · exact hacc2
          · exact ih _ hacc2

theorem finalize_graph_inv (rawNodes : List RawNode) (rawEdges : List RawEdge) :
    KGInv (finalize_graph rawNodes rawEdges) := by
  intro e he
  have hkeyed : Keyed (finalizeNodeLoop (rawNodes.take 100) []) :=
    keyed_finalizeNodeLoop _ _ fun p hp => absurd hp (List.not_mem_nil p)
  have hend := finalizeEdgeLoop_endpoints (finalizeNodeLoop (rawNodes.take 100) [])
    (rawEdges.take 200) [] (fun x hx => absurd hx (List.not_mem_nil _)) e he
  constructor
  · show e.data.source ∈
      ((finalizeNodeLoop (rawNodes.take 100) []).map Prod.snd).map fun n => n.data.id
    rw [keysA_eq_ids _ hkeyed]
    exact mem_keysA_of_lookup_isSome _ _ hend.1
  · show e.data.target ∈
      ((finalizeNodeLoop (rawNodes.take 100) []).map Prod.snd).map fun n => n.data.id
    rw [keysA_eq_ids _ hkeyed]
    exact mem_keysA_of_lookup_isSome _ _ hend.2

theorem id_mem_merge_fold_left (ns bs : List KGNode) :
    ∀ k ∈ ns.map (fun n => n.data.id), k ∈ keysA (nodesFold (nodesFold [] ns) bs) := by
  intro k hk
  obtain ⟨n, hn, rfl⟩ := List.mem_map.mp hk
  exact keysA_nodesFold_sub bs _ _ (mem_keysA_nodesFold ns [] n hn)

theorem merge_preserves_inv (A B : PyKG) (hA : PyInv A) (hB : PyInv B) :
    PyInv (merge_knowledge_graphs A B) := by
  cases A with
  | empty =>
    cases B with
    | empty => exact hB
    | g K => exact hB
  | g A0 =>
    cases B with
    | empty => exact hA
    | g B0 =>
      intro e he
      have hkeyed : Keyed (nodesFold (nodesFold [] A0.nodes) B0.nodes) :=
        keyed_nodesFold _ _ (keyed_nodesFold _ _ fun p hp => absurd hp (List.not_mem_nil p))
      have hgoal : ∀ k, k ∈ keysA (nodesFold (nodesFold [] A0.nodes) B0.nodes) →
          k ∈ ((nodesFold (nodesFold [] A0.nodes) B0.nodes).map Prod.snd).map
            fun n => n.data.id := by
        intro k hk
        rw [keysA_eq_ids _ hkeyed]
        exact hk
      rcases mem_of_mem_mergeEdges B0.edges A0.edges e he with h1 | h1
      · obtain ⟨hs, ht⟩ := hA e h1
        exact ⟨hgoal _ (id_mem_merge_fold_left A0.nodes B0.nodes _ hs),
               hgoal _ (id_mem_merge_fold_left A0.nodes B0.nodes _ ht)⟩
      · obtain ⟨hs, ht⟩ := hB e h1
        refine ⟨hgoal _ ?_, hgoal _ ?_⟩
        · obtain ⟨n, hn, heq⟩ := List.mem_map.mp hs
          rw [← heq]
          exact mem_keysA_nodesFold B0.nodes _ n hn
        · obtain ⟨n, hn, heq⟩ := List.mem_map.mp ht
          rw [← heq]
          exact mem_keysA_nodesFold B0.nodes _ n hn

/-- C9: every graph produced by `finalize_graph` satisfies the endpoint
invariant — each edge's source and target id exists in the node set, since
edges referencing unknown endpoints are dropped — and
`merge_knowledge_graphs` preserves the invariant: when both inputs satisfy
it, so does the merged output. -/
theorem kg_endpoint_invariant (rawNodes : List RawNode) (rawEdges : List RawEdge)
    (A B : PyKG) (hA : PyInv A) (hB : PyInv B) :
    KGInv (finalize_graph rawNodes rawEdges) ∧ PyInv (merge_knowledge_graphs A B) :=
  ⟨finalize_graph_inv rawNodes rawEdges, merge_preserves_inv A B hA hB⟩

/-- Witness for C9 at a concrete extractor payload (with a junk entry, an
id needing normalization and an edge to an unknown endpoint) and two
concrete invariant-satisfying graphs. -/
theorem kg_endpoint_invariant_witness :
    KGInv (finalize_graph witnessRawNodes witnessRawEdges) ∧
      PyInv (merge_knowledge_graphs witnessGraphA witnessGraphB) :=
  kg_endpoint_invariant witnessRawNodes witnessRawEdges witnessGraphA witnessGraphB
    (show KGInv witnessKGA by decide) (show KGInv witnessKGB by decide)

/-- Witness for the amended C4 theorem at concrete inputs: an empty
history is rejected, and a two-record history yields the latest-by-start
record first with the numeric delta and the LLM comparison. -/
theorem diff_last_two_runs_spec_witness :
    diff_last_two_runs constLLM [] = .error "Not enough runs to compare" ∧
    ∃ latest previous,
      (sortDesc (fun r => r.run_started_at) [longRun, shortRun]).take 2 =
        [latest, previous] ∧
      diff_last_two_runs constLLM [longRun, shortRun] = .ok
        ⟨latest, previous,
         ⟨latest.result_count - previous.result_count,
          latest.kg_nodes - previous.kg_nodes,
          latest.kg_edges - previous.kg_edges,
          latest.status, previous.status,
          latest.run_finished_at, previous.run_finished_at⟩,
         if previous.full_summary_text = "" ∨ latest.full_summary_text = "" then
           missingSummaryNote
         else
           constLLM previous.full_summary_text latest.full_summary_text
             (pyOrStr latest.topic (pyOrStr previous.topic "Unknown"))⟩ :=
  ⟨(diff_last_two_runs_spec constLLM []).1 (by decide),
   (diff_last_two_runs_spec constLLM [longRun, shortRun]).2 (by decide)⟩

end SIRA
